import Mathlib

/-!
# Formal model of the `serial` package

A shallow embedding of the Go package `lpar/serial` (file `serial.go`):
a generator of unique 64-bit serial numbers derived from nanosecond
Unix timestamps, together with a "seen" set supporting marking,
membership query and age-based expiry.

Modelling choices:
* Go `int64` values are modelled as `Int`; two's-complement wraparound of
  the increment `id = id + 1` is made explicit through `wrap64`, so the
  model is faithful at the boundaries of the 64-bit range.
* The Go map `map[Serial]struct{}` (a set of keys) is modelled as
  `Finset Int`.
* Calls to `time.Now().UnixNano()` are modelled by passing the sampled
  nanosecond timestamp as an explicit argument `now`.
* The ratchet loop `for id <= g.lastSerial { id = id + 1 }` can fail to
  terminate (when `lastSerial` is the maximum `int64`), so it is modelled
  with an explicit fuel parameter; `none` means the loop did not exit
  within `fuel` iterations.
-/

/-- Minimum value of a signed 64-bit integer. -/
def int64Min : Int := -(2 ^ 63)

/-- Maximum value of a signed 64-bit integer. -/
def int64Max : Int := 2 ^ 63 - 1

/-- Two's-complement wraparound of an integer to the signed 64-bit range. -/
def wrap64 (x : Int) : Int := (x + 2 ^ 63) % 2 ^ 64 - 2 ^ 63

/-- `Serial` is a unique serial number (Go: `type Serial int64`). -/
abbrev Serial := Int

/-- The generator state (Go: `struct Generator`): the last issued serial
(`lastSerial`, Go zero value `0` on construction) and the set of seen
serials (`seen`).  The two mutexes guard concurrent access only and carry
no sequential state, so they do not appear in the model. -/
structure Generator where
  lastSerial : Serial
  seen : Finset Serial
  deriving DecidableEq

/-- Go `NewGenerator`: `gen := &Generator{}` (zero value, so `lastSerial = 0`)
followed by `gen.seen = make(map[Serial]struct{})` (empty set). -/
def NewGenerator : Generator := { lastSerial := 0, seen := ∅ }

/-- Go `Seen`: `_, ok := g.seen[x]; return ok`. -/
def Seen (g : Generator) (x : Serial) : Bool := decide (x ∈ g.seen)

/-- Go `SetSeen`: `g.seen[x] = struct{}{}`. -/
def SetSeen (g : Generator) (x : Serial) : Generator :=
  { g with seen := insert x g.seen }

/-- Go `ExpireSeen`: with `limit := time.Now().Add(-agelimit).UnixNano()`
(that is, `now - agelimit`, both in nanoseconds), every key `tok` with
`int64(tok) < limit` is deleted from the map while iterating.  Deleting
entries during a Go map range visits every original key at most once and
never re-adds, so the loop is exactly a filter keeping the keys that are
not below `limit`. -/
def ExpireSeen (g : Generator) (now agelimit : Int) : Generator :=
  { g with seen := g.seen.filter (fun tok => ¬ tok < now - agelimit) }

/-- The loop of Go `Generate`: `for id <= last { id = id + 1 }`, with the
increment wrapping at the 64-bit boundary as in Go.  `fuel` bounds the
number of iterations; `none` means the loop has not exited in `fuel`
steps (the Go loop would still be running). -/
def ratchetLoopFuel : Nat → Int → Int → Option Int
  | 0, _, _ => none
  | fuel + 1, last, id =>
    if id ≤ last then ratchetLoopFuel fuel last (wrap64 (id + 1)) else some id

/-- Go `Generate`: sample `now = time.Now().UnixNano()`, run the ratchet
loop starting from `now`, store the result as the new `lastSerial` and
return it.  A `none` result means the ratchet loop diverges. -/
def Generate (g : Generator) (now : Int) (fuel : Nat) : Option (Serial × Generator) :=
  match ratchetLoopFuel fuel g.lastSerial now with
  | some id => some (id, { g with lastSerial := id })
  | none => none

/-- A finite sequence of completed `Generate` calls, each with its own
sampled timestamp and fuel; returns the list of issued serials and the
final state, or `none` if some call fails to complete. -/
def generateSeq : Generator → List (Int × Nat) → Option (List Serial × Generator)
  | g, [] => some ([], g)
  | g, (now, fuel) :: rest =>
    match Generate g now fuel with
    | some (id, g') =>
      match generateSeq g' rest with
      | some (ids, gf) => some (id :: ids, gf)
      | none => none
    | none => none

/-- An operation on a generator, for reasoning about arbitrary call
sequences. -/
inductive Op where
  | generate (now : Int) (fuel : Nat)
  | setSeen (x : Serial)
  | expireSeen (now agelimit : Int)
  deriving DecidableEq

/-- Apply one operation to the state.  A `Generate` call that does not
complete (Go: the ratchet loop spins forever) never returns, so no later
operation would run; since `Generate` never touches the seen set, keeping
the state unchanged is exact for seen-set reasoning. -/
def applyOp (g : Generator) : Op → Generator
  | .generate now fuel =>
    match Generate g now fuel with
    | some (_, g') => g'
    | none => g
  | .setSeen x => SetSeen g x
  | .expireSeen now agelimit => ExpireSeen g now agelimit

/-- Run a sequence of operations from a fresh generator. -/
def runOps (ops : List Op) : Generator := ops.foldl applyOp NewGenerator

/-- Modelled from the spec's words for `Seen`: scanning the history from
the most recent operation backwards (the argument is the reversed trace),
`x` is seen iff a `SetSeen x` is found before any `ExpireSeen` whose
cutoff removes `x`. -/
def specSeenRev (x : Serial) : List Op → Bool
  | [] => false
  | Op.setSeen y :: rest => decide (x = y) || specSeenRev x rest
  | Op.expireSeen now agelimit :: rest =>
    if x < now - agelimit then false else specSeenRev x rest
  | Op.generate _ _ :: rest => specSeenRev x rest

/-- Modelled from the spec's words: `Seen x` is true iff some earlier
`SetSeen x` marked `x` and no later `ExpireSeen` call removed it. -/
def specSeen (x : Serial) (ops : List Op) : Bool := specSeenRev x ops.reverse

/-- `x`, if currently present, survives all the expiries in `ops`. -/
def survives (x : Serial) : List Op → Bool
  | [] => true
  | Op.expireSeen now agelimit :: rest =>
    decide (¬ x < now - agelimit) && survives x rest
  | Op.setSeen _ :: rest => survives x rest
  | Op.generate _ _ :: rest => survives x rest

/-- Marking one generator of a pair as having seen `x`, leaving the other
untouched: two independent instances in one world. -/
def setSeenFst (w : Generator × Generator) (x : Serial) : Generator × Generator :=
  (SetSeen w.1 x, w.2)

/-! ## Basic lemmas about the ratchet loop -/

theorem wrap64_eq_self {x : Int} (h1 : int64Min ≤ x) (h2 : x ≤ int64Max) :
    wrap64 x = x := by
  have hpow : (2 : Int) ^ 64 = 2 ^ 63 * 2 := by ring
  have h63 : (0 : Int) < 2 ^ 63 := by positivity
  have hlo : 0 ≤ x + 2 ^ 63 := by
    simp only [int64Min] at h1; omega
  have hhi : x + 2 ^ 63 < 2 ^ 64 := by
    simp only [int64Max] at h2; omega
  unfold wrap64
  rw [Int.emod_eq_of_lt hlo hhi]
  omega

theorem wrap64_mem_range (x : Int) :
    int64Min ≤ wrap64 x ∧ wrap64 x ≤ int64Max := by
  have hpos : (0 : Int) < 2 ^ 64 := by positivity
  have h1 : 0 ≤ (x + 2 ^ 63) % 2 ^ 64 := Int.emod_nonneg _ (by positivity)
  have h2 : (x + 2 ^ 63) % 2 ^ 64 < 2 ^ 64 := Int.emod_lt_of_pos _ hpos
  have hpow : (2 : Int) ^ 64 = 2 ^ 63 * 2 := by ring
  constructor <;> simp only [wrap64, int64Min, int64Max] <;> omega

/-- If the ratchet loop exits, it exits with a value strictly above the
old `lastSerial`. -/
theorem ratchetLoopFuel_gt :
    ∀ (fuel : Nat) (last id r : Int),
      ratchetLoopFuel fuel last id = some r → last < r := by
  intro fuel
  induction fuel with
  | zero => intro last id r h; simp [ratchetLoopFuel] at h
  | succ n ih =>
    intro last id r h
    simp only [ratchetLoopFuel] at h
    split at h
    · exact ih last _ r h
    · rename_i hc
      cases h
      omega

/-- If the loop exits (no wraparound can occur below `int64Max`), the
result is exactly `max id (last + 1)`. -/
theorem ratchetLoopFuel_some_eq :
    ∀ (fuel : Nat) (last id r : Int),
      int64Min ≤ id → last < int64Max →
      ratchetLoopFuel fuel last id = some r → r = max id (last + 1) := by
  intro fuel
  induction fuel with
  | zero => intro last id r _ _ h; simp [ratchetLoopFuel] at h
  | succ n ih =>
    intro last id r h1 h2 h
    simp only [ratchetLoopFuel] at h
    split at h
    · rename_i hc
      have hw : wrap64 (id + 1) = id + 1 := by
        apply wrap64_eq_self
        · simp only [int64Min] at h1 ⊢; omega
        · simp only [int64Max] at h2 ⊢; omega
      rw [hw] at h
      have := ih last (id + 1) r (by simp only [int64Min] at h1 ⊢; omega) h2 h
      omega
    · rename_i hc
      cases h
      omega

/-- With fuel one more than the gap, the loop exits with `max id (last + 1)`. -/
theorem ratchetLoopFuel_enough :
    ∀ (n : Nat) (last id : Int),
      (last + 1 - id).toNat = n → int64Min ≤ id → last < int64Max →
      ratchetLoopFuel (n + 1) last id = some (max id (last + 1)) := by
  intro n
  induction n with
  | zero =>
    intro last id hn h1 h2
    have hid : last < id := by omega
    simp only [ratchetLoopFuel]
    rw [if_neg (by omega)]
    congr 1
    omega
  | succ m ih =>
    intro last id hn h1 h2
    have hid : id ≤ last := by omega
    rw [ratchetLoopFuel, if_pos hid]
    have hw : wrap64 (id + 1) = id + 1 := by
      apply wrap64_eq_self
      · simp only [int64Min] at h1 ⊢; omega
      · simp only [int64Max] at h2 ⊢; omega
    rw [hw]
    have := ih last (id + 1) (by omega) (by simp only [int64Min] at h1 ⊢; omega) h2
    rw [this]
    congr 1
    omega

/-- More fuel never changes an exit result. -/
theorem ratchetLoopFuel_mono :
    ∀ (fuel fuel' : Nat) (last id r : Int), fuel ≤ fuel' →
      ratchetLoopFuel fuel last id = some r →
      ratchetLoopFuel fuel' last id = some r := by
  intro fuel
  induction fuel with
  | zero => intro fuel' last id r _ h; simp [ratchetLoopFuel] at h
  | succ n ih =>
    intro fuel' last id r hle h
    obtain ⟨m, rfl⟩ : ∃ m, fuel' = m + 1 := ⟨fuel' - 1, by omega⟩
    simp only [ratchetLoopFuel] at h ⊢
    split at h <;> rename_i hc
    · rw [if_pos hc]
      exact ih m last _ r (by omega) h
    · rw [if_neg hc]
      exact h

/-- When `lastSerial` is the maximum `int64`, the loop never exits: every
candidate in the 64-bit range satisfies `id ≤ int64Max`, and the wrapping
increment stays in range. -/
theorem ratchetLoopFuel_max_none :
    ∀ (fuel : Nat) (id : Int), int64Min ≤ id → id ≤ int64Max →
      ratchetLoopFuel fuel int64Max id = none := by
  intro fuel
  induction fuel with
  | zero => intro id _ _; rfl
  | succ n ih =>
    intro id h1 h2
    simp only [ratchetLoopFuel]
    rw [if_pos h2]
    exact ih _ (wrap64_mem_range _).1 (wrap64_mem_range _).2

/-! ## Lemmas about `Generate` and the seen set -/

/-- A completed `Generate` call returns a value strictly above the old
`lastSerial`, stores it as the new `lastSerial`, and leaves the seen set
untouched. -/
theorem Generate_some {g : Generator} {now : Int} {fuel : Nat}
    {id : Serial} {g' : Generator} (h : Generate g now fuel = some (id, g')) :
    g.lastSerial < id ∧ g'.lastSerial = id ∧ g'.seen = g.seen := by
  unfold Generate at h
  cases hr : ratchetLoopFuel fuel g.lastSerial now with
  | none => rw [hr] at h; cases h
  | some r =>
    rw [hr] at h
    simp only [Option.some.injEq, Prod.mk.injEq] at h
    obtain ⟨rfl, rfl⟩ := h
    exact ⟨ratchetLoopFuel_gt fuel g.lastSerial now r hr, rfl, rfl⟩

theorem Seen_SetSeen (g : Generator) (x y : Serial) :
    Seen (SetSeen g y) x = (decide (x = y) || Seen g x) := by
  simp [Seen, SetSeen, Finset.mem_insert]

theorem Seen_ExpireSeen (g : Generator) (now agelimit : Int) (x : Serial) :
    Seen (ExpireSeen g now agelimit) x =
      (if x < now - agelimit then false else Seen g x) := by
  by_cases hc : x < now - agelimit
  · simp [Seen, ExpireSeen, Finset.mem_filter, hc]
    intro h
    linarith
  · simp [Seen, ExpireSeen, Finset.mem_filter, hc]
    intro h
    linarith

theorem Seen_applyOp_generate (g : Generator) (now : Int) (fuel : Nat)
    (x : Serial) : Seen (applyOp g (.generate now fuel)) x = Seen g x := by
  simp only [applyOp]
  cases hg : Generate g now fuel with
  | none => rfl
  | some p =>
    obtain ⟨id, g'⟩ := p
    obtain ⟨-, -, hseen⟩ := Generate_some hg
    simp [Seen, hseen]

theorem survives_append (x : Serial) :
    ∀ (l1 l2 : List Op), survives x (l1 ++ l2) = (survives x l1 && survives x l2) := by
  intro l1 l2
  induction l1 with
  | nil => simp [survives]
  | cons op rest ih =>
    cases op <;> simp [survives, ih, Bool.and_assoc]

/-- Characterisation of membership after running a trace from an arbitrary
start state: `x` is seen afterwards iff it was marked by the trace and not
expired later, or it was seen initially and survives every expiry of the
trace. -/
theorem Seen_foldl (ops : List Op) :
    ∀ (g : Generator) (x : Serial),
      Seen (ops.foldl applyOp g) x =
        (specSeenRev x ops.reverse || (Seen g x && survives x ops)) := by
  induction ops using List.reverseRecOn with
  | nil => intro g x; simp [specSeenRev, survives]
  | append_singleton l op ih =>
    intro g x
    rw [List.foldl_append]
    cases op with
    | setSeen y =>
      simp only [List.foldl_cons, List.foldl_nil, applyOp]
      rw [Seen_SetSeen, ih, List.reverse_append]
      simp only [List.reverse_cons, List.reverse_nil, List.nil_append,
        List.singleton_append, specSeenRev, survives_append, survives]
      by_cases hxy : x = y <;> simp [hxy, Bool.or_assoc, Bool.and_comm]
    | expireSeen now agelimit =>
      simp only [List.foldl_cons, List.foldl_nil, applyOp]
      rw [Seen_ExpireSeen, ih, List.reverse_append]
      simp only [List.reverse_cons, List.reverse_nil, List.nil_append,
        List.singleton_append, specSeenRev, survives_append, survives]
      by_cases hc : x < now - agelimit <;> simp [hc, Bool.and_assoc]
    | generate now fuel =>
      simp only [List.foldl_cons, List.foldl_nil]
      rw [Seen_applyOp_generate, ih, List.reverse_append]
      simp only [List.reverse_cons, List.reverse_nil, List.nil_append,
        List.singleton_append, specSeenRev, survives_append, survives]
      simp

/-- Monotonicity over a whole sequence: every serial issued by a
completed sequence exceeds the starting `lastSerial`, and the issued
serials are strictly increasing in order of issue. -/
theorem generateSeq_aux :
    ∀ (calls : List (Int × Nat)) (g : Generator) (ids : List Serial)
      (gf : Generator), generateSeq g calls = some (ids, gf) →
      ids.Pairwise (· < ·) ∧ ∀ x ∈ ids, g.lastSerial < x := by
  intro calls
  induction calls with
  | nil =>
    intro g ids gf h
    simp only [generateSeq, Option.some.injEq, Prod.mk.injEq] at h
    obtain ⟨rfl, rfl⟩ := h
    simp
  | cons c rest ih =>
    intro g ids gf h
    obtain ⟨now, fuel⟩ := c
    simp only [generateSeq] at h
    cases hg : Generate g now fuel with
    | none => rw [hg] at h; cases h
    | some p =>
      obtain ⟨id, g'⟩ := p
      simp only [hg] at h
      cases hs : generateSeq g' rest with
      | none => rw [hs] at h; cases h
      | some q =>
        obtain ⟨ids', gf'⟩ := q
        simp only [hs, Option.some.injEq, Prod.mk.injEq] at h
        obtain ⟨rfl, rfl⟩ := h
        obtain ⟨hlt, hlast, -⟩ := Generate_some hg
        obtain ⟨hpw, hall⟩ := ih g' ids' gf' hs
        refine ⟨List.Pairwise.cons ?_ hpw, ?_⟩
        · intro y hy
          have hy' := hall y hy
          rw [hlast] at hy'
          exact hy'
        · intro y hy
          rcases List.mem_cons.mp hy with rfl | hy'
          · exact hlt
          · have hy'' := hall y hy'
            rw [hlast] at hy''
            exact lt_trans hlt hy''

/-! ## The claims -/

/-- C1: For every Generator instance and every finite sequence of
completed `Generate()` calls on it, every returned identifier is strictly
greater than every identifier returned by a prior completed call, so all
returned values are pairwise distinct. -/
theorem generate_total_order (g : Generator) (calls : List (Int × Nat))
    (ids : List Serial) (gf : Generator)
    (h : generateSeq g calls = some (ids, gf)) :
    ids.Pairwise (· < ·) ∧ ids.Pairwise (· ≠ ·) := by
  obtain ⟨hpw, -⟩ := generateSeq_aux calls g ids gf h
  exact ⟨hpw, hpw.imp ne_of_lt⟩

theorem generate_total_order_witness :
    generateSeq NewGenerator [(5, 1), (3, 4)] =
        some ([5, 6], { lastSerial := 6, seen := ∅ }) ∧
      ([5, 6] : List Serial).Pairwise (· < ·) ∧
      ([5, 6] : List Serial).Pairwise (· ≠ ·) :=
  ⟨by decide,
   generate_total_order NewGenerator [(5, 1), (3, 4)] [5, 6]
     { lastSerial := 6, seen := ∅ } (by decide)⟩

/-- C2: `Generate` samples the clock as `candidate`, increments it while
`candidate ≤ lastIssued`, stores the result in `lastIssued` and returns
it; for sampled time `t` and prior ratchet `L` (in the `int64` range,
with enough fuel for the loop to exit) it returns `max t (L + 1)` and
leaves the ratchet equal to the returned value. -/
theorem generate_algorithm (g : Generator) (now : Int) (fuel : Nat)
    (h1 : int64Min ≤ now) (h2 : g.lastSerial < int64Max)
    (h3 : (g.lastSerial + 1 - now).toNat < fuel) :
    Generate g now fuel =
      some (max now (g.lastSerial + 1),
        { g with lastSerial := max now (g.lastSerial + 1) }) := by
  unfold Generate
  have he := ratchetLoopFuel_enough (g.lastSerial + 1 - now).toNat
    g.lastSerial now rfl h1 h2
  have hm := ratchetLoopFuel_mono _ fuel _ _ _ (Nat.succ_le_of_lt h3) he
  rw [hm]

theorem generate_algorithm_witness :
    int64Min ≤ (3 : Int) ∧ NewGenerator.lastSerial < int64Max ∧
      (NewGenerator.lastSerial + 1 - 3).toNat < 2 ∧
      Generate NewGenerator 3 2 =
        some (max 3 (NewGenerator.lastSerial + 1),
          { NewGenerator with lastSerial := max 3 (NewGenerator.lastSerial + 1) }) :=
  ⟨by decide, by decide, by decide,
   generate_algorithm NewGenerator 3 2 (by decide) (by decide) (by decide)⟩

/-- C3: `ExpireSeen` keeps exactly the entries that are not strictly
below the cutoff `now - ageLimit` (any `ageLimit`, including zero and
values making the cutoff negative): an entry is seen afterwards iff it
was seen before and its value is `≥ cutoff`. -/
theorem expireSeen_exact (g : Generator) (now agelimit x : Int) :
    Seen (ExpireSeen g now agelimit) x =
      (Seen g x && decide (now - agelimit ≤ x)) := by
  rw [Seen_ExpireSeen]
  by_cases hc : x < now - agelimit
  · have hn : ¬ now - agelimit ≤ x := by linarith
    simp [hc, hn]
  · have hn : now - agelimit ≤ x := by linarith
    simp [hc, hn]

/-- C4: every identifier returned by a completed `Generate` call is `≥`
the clock sample taken at the start of the call (for `int64`-range
inputs); ratcheting only pushes the value forward. -/
theorem generate_lower_bound (g : Generator) (now : Int) (fuel : Nat)
    (id : Serial) (g' : Generator)
    (h1 : int64Min ≤ now) (h2 : now ≤ int64Max) (h3 : g.lastSerial ≤ int64Max)
    (h : Generate g now fuel = some (id, g')) : now ≤ id := by
  unfold Generate at h
  cases hr : ratchetLoopFuel fuel g.lastSerial now with
  | none => rw [hr] at h; cases h
  | some r =>
    rw [hr] at h
    simp only [Option.some.injEq, Prod.mk.injEq] at h
    obtain ⟨rfl, -⟩ := h
    rcases lt_or_eq_of_le h3 with hlt | heq
    · have hre := ratchetLoopFuel_some_eq fuel g.lastSerial now r h1 hlt hr
      rw [hre]
      exact le_max_left _ _
    · rw [heq, ratchetLoopFuel_max_none fuel now h1 h2] at hr
      cases hr

theorem generate_lower_bound_witness :
    int64Min ≤ (3 : Int) ∧ (3 : Int) ≤ int64Max ∧
      NewGenerator.lastSerial ≤ int64Max ∧
      Generate NewGenerator 3 1 = some (3, { lastSerial := 3, seen := ∅ }) ∧
      (3 : Int) ≤ 3 :=
  ⟨by decide, by decide, by decide, by decide,
   generate_lower_bound NewGenerator 3 1 3 { lastSerial := 3, seen := ∅ }
     (by decide) (by decide) (by decide) (by decide)⟩

/-- C5: for every sequence of operations run from a fresh generator and
every 64-bit identifier `x` (whether produced by this generator or not),
`Seen x` is true iff some earlier `SetSeen x` marked `x` and no later
`ExpireSeen` removed it; in particular an identifier never passed to
`SetSeen` is never seen. -/
theorem seen_characterisation :
    (∀ (ops : List Op) (x : Serial), Seen (runOps ops) x = specSeen x ops) ∧
    (∀ (ops : List Op) (x : Serial), Op.setSeen x ∉ ops →
      Seen (runOps ops) x = false) := by
  have hmain : ∀ (ops : List Op) (x : Serial),
      Seen (runOps ops) x = specSeen x ops := by
    intro ops x
    rw [runOps, Seen_foldl]
    have hnew : Seen NewGenerator x = false := by simp [Seen, NewGenerator]
    rw [hnew]
    simp [specSeen]
  refine ⟨hmain, ?_⟩
  intro ops x hn
  rw [hmain]
  have hrev : ∀ l : List Op, Op.setSeen x ∉ l → specSeenRev x l = false := by
    intro l
    induction l with
    | nil => intro _; rfl
    | cons op rest ih =>
      intro hnl
      have hop : op ≠ Op.setSeen x := fun hc => hnl (hc ▸ List.mem_cons_self _ _)
      have hrest : Op.setSeen x ∉ rest := fun hc => hnl (List.mem_cons_of_mem _ hc)
      cases op with
      | setSeen y =>
        have hxy : ¬ x = y := fun hc => hop (by rw [hc])
        simp [specSeenRev, hxy, ih hrest]
      | expireSeen now agelimit => simp [specSeenRev, ih hrest]
      | generate now fuel => simp [specSeenRev, ih hrest]
  rw [specSeen]
  exact hrev ops.reverse (by simpa using hn)

theorem seen_characterisation_witness :
    Op.setSeen 1 ∉ [Op.setSeen 2] ∧ Seen (runOps [Op.setSeen 2]) 1 = false :=
  ⟨by decide, seen_characterisation.2 [Op.setSeen 2] 1 (by decide)⟩

/-- C6: `SetSeen` is idempotent: marking an already-marked identifier
leaves the whole state (and hence all observable behaviour) identical,
and the marked identifier is seen. -/
theorem setSeen_idempotent (g : Generator) (x : Serial) :
    SetSeen (SetSeen g x) x = SetSeen g x ∧ Seen (SetSeen g x) x = true := by
  cases g with
  | mk last s =>
    constructor
    · simp [SetSeen, Finset.insert_idem]
    · simp [Seen, SetSeen]

/-- C7: `NewGenerator` returns a fully initialized empty instance: the
ratchet is at its initial (zero) value and no identifier is seen. -/
theorem newGenerator_initial :
    NewGenerator.lastSerial = 0 ∧ ∀ x : Serial, Seen NewGenerator x = false :=
  ⟨rfl, fun x => by simp [Seen, NewGenerator]⟩

/-- C8: frame conditions: a completed `Generate` leaves the seen set
unchanged; `SetSeen` and `ExpireSeen` leave the ratchet unchanged; and
marking on one instance of a pair never affects queries on the other. -/
theorem frame_conditions :
    (∀ (g : Generator) (now : Int) (fuel : Nat) (id : Serial) (g' : Generator),
        Generate g now fuel = some (id, g') → g'.seen = g.seen) ∧
    (∀ (g : Generator) (x : Serial), (SetSeen g x).lastSerial = g.lastSerial) ∧
    (∀ (g : Generator) (now agelimit : Int),
        (ExpireSeen g now agelimit).lastSerial = g.lastSerial) ∧
    (∀ (w : Generator × Generator) (x y : Serial),
        Seen (setSeenFst w x).2 y = Seen w.2 y) := by
  refine ⟨?_, fun g x => rfl, fun g now a => rfl, fun w x y => rfl⟩
  intro g now fuel id g' h
  exact (Generate_some h).2.2

theorem frame_conditions_witness :
    Generate NewGenerator 3 1 = some (3, { lastSerial := 3, seen := ∅ }) ∧
      (Generator.mk 3 ∅).seen = NewGenerator.seen :=
  ⟨by decide,
   frame_conditions.1 NewGenerator 3 1 3 { lastSerial := 3, seen := ∅ } (by decide)⟩

/-- C9: the ratchet loop terminates whenever `lastSerial < 2 ^ 63 - 1`
(fuel one more than the gap suffices, and it exits with
`max id (lastSerial + 1)`); and this bound is necessary: when
`lastSerial = 2 ^ 63 - 1`, no amount of fuel makes the loop exit for any
candidate in the `int64` range. -/
theorem ratchet_termination :
    (∀ (last id : Int), int64Min ≤ id → last < int64Max →
        ratchetLoopFuel ((last + 1 - id).toNat + 1) last id =
          some (max id (last + 1))) ∧
    (∀ (fuel : Nat) (id : Int), int64Min ≤ id → id ≤ int64Max →
        ratchetLoopFuel fuel int64Max id = none) :=
  ⟨fun last id h1 h2 => ratchetLoopFuel_enough _ last id rfl h1 h2,
   fun fuel id h1 h2 => ratchetLoopFuel_max_none fuel id h1 h2⟩

theorem ratchet_termination_witness :
    (int64Min ≤ (0 : Int) ∧ (5 : Int) < int64Max ∧
        ratchetLoopFuel (((5 : Int) + 1 - 0).toNat + 1) 5 0 =
          some (max 0 (5 + 1))) ∧
      (int64Min ≤ (0 : Int) ∧ (0 : Int) ≤ int64Max ∧
        ratchetLoopFuel 3 int64Max 0 = none) :=
  ⟨⟨by decide, by decide, ratchet_termination.1 5 0 (by decide) (by decide)⟩,
   ⟨by decide, by decide, ratchet_termination.2 3 0 (by decide) (by decide)⟩⟩
